import Mathlib

/-!
Shallow embedding of the codecollector traversal core (main.go).

Paths are modelled as cleaned Go paths: an absolute flag plus the list of
`/`-separated segments (no "." or ".." segments, no trailing slash), which is
the canonical form `filepath.Walk` and `filepath.Clean` produce.  Go's regexp
engine is modelled by an explicit token matcher for exactly the fragments the
glob translation in `matchPattern` emits.
-/

/-- A cleaned Go file path: `/a/b` is `⟨true, ["a","b"]⟩`, `a/b` is
`⟨false, ["a","b"]⟩`, `/` is `⟨true, []⟩` and `.` is `⟨false, []⟩`. -/
structure GoPath where
  abs : Bool
  segs : List String
deriving DecidableEq, Repr

/-- `filepath.Dir` on a cleaned path: drop the last segment.
`Dir("/") = "/"` and `Dir(".") = "."` fall out as `segs = []` fixed points. -/
def dirOf (p : GoPath) : GoPath := ⟨p.abs, p.segs.dropLast⟩

/-- Segment-level core of `filepath.Rel`: strip the common leading segments,
then one ".." per remaining base segment followed by the remaining target
segments; equal paths yield ["."] (Go returns the string "."). -/
def relAux : List String → List String → List String
  | [], [] => ["."]
  | [], t :: ts => t :: ts
  | b :: bs, [] => (b :: bs).map (fun _ => "..")
  | b :: bs, t :: ts =>
    if b = t then relAux bs ts
    else ((b :: bs).map (fun _ => "..")) ++ (t :: ts)

/-- `filepath.Rel(base, targ)` followed by `strings.Split(·, "/")` (after
`filepath.ToSlash`).  On cleaned paths without ".." segments, Rel fails
exactly when one path is absolute and the other relative. -/
def relSegs (base targ : GoPath) : Option (List String) :=
  if base.abs = targ.abs then some (relAux base.segs targ.segs) else none

/-- `strings.Join(parts, "/")`, used for the prefix sub-paths tested by
`matchesAnyPart` (and to print paths). -/
def joinSlash : List String → String
  | [] => ""
  | [s] => s
  | s :: rest => s ++ "/" ++ joinSlash rest

/-- The path as Go would print it (diagnostic only, used for rule sources). -/
def pathStr (p : GoPath) : String :=
  (if p.abs then "/" else "") ++ joinSlash p.segs

/-- The regex fragments the glob translation in `matchPattern` emits:
`lit c` a literal character (metacharacters are escaped, so every
non-`*`/`?` input character matches itself literally), `oneSeg` is `[^/]`,
`starSeg` is `[^/]*`, `dirOpt` is `(?:.*/)?`.  `dirForce` is the mandatory
`.*/` inside the optional group; the translation never emits it, it only
serves the matcher. -/
inductive RTok where
  | lit (c : Char)
  | oneSeg
  | starSeg
  | dirOpt
  | dirForce
deriving DecidableEq, Repr

/-- Weight used to bound the matcher's search depth. -/
def tokensWeight : List RTok → Nat
  | [] => 0
  | RTok.dirOpt :: ts => 2 + tokensWeight ts
  | _ :: ts => 1 + tokensWeight ts

/-- Fueled backtracking matcher for a token list against an exact string.
Every recursive call decreases `(length of input, token weight)`
lexicographically, so the fuel chosen by `rmatch` is always sufficient. -/
def rmatchF : Nat → List RTok → List Char → Bool
  | 0, _, _ => false
  | _ + 1, [], s => s.isEmpty
  | _ + 1, RTok.lit _ :: _, [] => false
  | fuel + 1, RTok.lit c :: ts, x :: xs => decide (x = c) && rmatchF fuel ts xs
  | _ + 1, RTok.oneSeg :: _, [] => false
  | fuel + 1, RTok.oneSeg :: ts, x :: xs => decide (x ≠ '/') && rmatchF fuel ts xs
  | fuel + 1, RTok.starSeg :: ts, [] => rmatchF fuel ts []
  | fuel + 1, RTok.starSeg :: ts, x :: xs =>
    rmatchF fuel ts (x :: xs) || (decide (x ≠ '/') && rmatchF fuel (RTok.starSeg :: ts) xs)
  | fuel + 1, RTok.dirOpt :: ts, s =>
    rmatchF fuel ts s || rmatchF fuel (RTok.dirForce :: ts) s
  | _ + 1, RTok.dirForce :: _, [] => false
  | fuel + 1, RTok.dirForce :: ts, x :: xs =>
    (decide (x = '/') && rmatchF fuel ts xs) || rmatchF fuel (RTok.dirForce :: ts) xs

/-- The token list matches the whole character list.  The fuel bounds the
lexicographic measure `(|s|, weight)` from above, so it never runs out. -/
def rmatch (ts : List RTok) (s : List Char) : Bool :=
  rmatchF ((s.length + 1) * (tokensWeight ts + 1) + 1) ts s

/-- The glob-to-regex translation loop of `matchPattern`, one token per input
character.  A `*` whose next character is `*` emits `(?:.*/)?`; crucially the
`i++` in the Go source is a no-op inside `for i, char := range`, so the second
`*` is processed again on the next iteration (usually emitting `[^/]*`).
`?` emits `[^/]`; every other character (metacharacters escaped, `\`
doubled) matches itself literally. -/
def globTokens : List Char → List RTok
  | [] => []
  | c :: rest =>
    (if c = '*' then
      (if rest.head? = some '*' then RTok.dirOpt else RTok.starSeg)
     else if c = '?' then RTok.oneSeg
     else RTok.lit c) :: globTokens rest

/-- `strings.HasPrefix(pattern, "*")`. -/
def startsWithStar (p : String) : Bool := decide (p.toList.head? = some '*')

/-- `strings.HasSuffix(pattern, "*")`. -/
def endsWithStar (p : String) : Bool := decide (p.toList.getLast? = some '*')

/-- Go's `regexp.MatchString` on the translated pattern: the token list must
match some substring `s[i..j)`; a leading `^` (added when the pattern does not
start with `*`) forces `i = 0`, a trailing `$` (added when it does not end
with `*`) forces `j = |s|`. -/
def regexMatch (aStart aEnd : Bool) (ts : List RTok) (s : List Char) : Bool :=
  (List.range (s.length + 1)).any fun i =>
    (List.range (s.length + 1)).any fun j =>
      decide (i ≤ j) && (!aStart || decide (i = 0)) && (!aEnd || decide (j = s.length)) &&
        rmatch ts ((s.drop i).take (j - i))

/-- `matchPattern(pattern, path)` from main.go.  The literal pattern `**`
matches anything; otherwise the pattern is translated character by character
and anchored at each end independently.  The translation escapes every regexp
metacharacter, so the compiled regex is always valid and the error branch of
the Go function is unreachable; the `Except` shape of the Go signature is
kept for the callers. -/
def matchPattern (pattern path : String) : Except String Bool :=
  if pattern = "**" then Except.ok true
  else
    Except.ok (regexMatch (!startsWithStar pattern) (!endsWithStar pattern)
      (globTokens pattern.toList) path.toList)

/-- The `matchesAnyPart` closure inside `isIgnored`, abstracted over the
single-pattern matcher it calls: test the pattern against every leading
sub-path `parts[0..i]` joined by `/`; a matcher error skips that sub-path
(`continue` in the source). -/
def matchesAnyPartWith (m : String → String → Except String Bool)
    (pat : String) (parts : List String) : Bool :=
  (List.range parts.length).any fun i =>
    match m pat (joinSlash (parts.take (i + 1))) with
    | Except.ok b => b
    | Except.error _ => false

/-- `matchesAnyPart` as the source uses it, with the real `matchPattern`. -/
def matchesAnyPart (pat : String) (parts : List String) : Bool :=
  matchesAnyPartWith matchPattern pat parts

/-- A single ignore rule: pattern plus diagnostic provenance. -/
structure IgnoreRule where
  Pattern : String
  Source : String
deriving DecidableEq, Repr

/-- `strings.TrimSpace`: drop whitespace from both ends. -/
def trimString (s : String) : String :=
  let a := s.toList.dropWhile (fun c => c.isWhitespace)
  String.mk ((a.reverse.dropWhile (fun c => c.isWhitespace)).reverse)

/-- `strings.Split(content, "\n")`. -/
def splitOnNl : List Char → List (List Char)
  | [] => [[]]
  | c :: rest =>
    let r := splitOnNl rest
    if c = '\n' then [] :: r
    else
      match r with
      | [] => [[c]]
      | l :: ls => (c :: l) :: ls

/-- `parseGitignore`: split the file content into lines, trim each, keep
the non-empty lines not starting with `#` as rules tagged with the file's
path. -/
def parseGitignore (src content : String) : List IgnoreRule :=
  (((splitOnNl content.toList).map (fun cs => trimString (String.mk cs))).filter
    (fun l => !(decide (l = "")) && !(decide (l.toList.head? = some '#')))).map
    (fun l => ⟨l, src⟩)

/-- One level of the `.gitignore` scan inside `isIgnored`: if a `.gitignore`
exists in `dir` (the filesystem is given as a map from a directory to the raw
content of its `.gitignore`, `none` covering both a missing and an unreadable
file, which the source treats identically), parse it and test every rule
against the same leading sub-paths of the path relative to the root. -/
def gitignoreMatchAt (m : String → String → Except String Bool)
    (fs : GoPath → Option String) (parts : List String) (dir : GoPath) : Bool :=
  match fs dir with
  | some content =>
    (parseGitignore (pathStr dir ++ "/.gitignore") content).any fun rule =>
      matchesAnyPartWith m rule.Pattern parts
  | none => false

/-- The upward `.gitignore` loop of `isIgnored`, fueled by the number of
segments of the starting directory (each step drops one segment, and the loop
stops at `rootDir`, `/` or `.`, so the fuel never runs out).  The break is
tested before the directory is examined, exactly as in the source. -/
def checkGitignoresF (m : String → String → Except String Bool)
    (fs : GoPath → Option String) (rootDir : GoPath) (parts : List String) :
    Nat → GoPath → Bool
  | 0, _ => false
  | fuel + 1, dir =>
    if dir = rootDir ∨ dir = GoPath.mk true [] ∨ dir = GoPath.mk false [] then false
    else
      gitignoreMatchAt m fs parts dir ||
        checkGitignoresF m fs rootDir parts fuel (dirOf dir)

/-- The `.gitignore` loop with its adequate fuel. -/
def checkGitignoresWith (m : String → String → Except String Bool)
    (fs : GoPath → Option String) (rootDir : GoPath) (parts : List String)
    (dir : GoPath) : Bool :=
  checkGitignoresF m fs rootDir parts (dir.segs.length + 1) dir

/-- The list of directories the upward loop of `isIgnored` examines, in
order: the starting directory itself, then each ancestor, stopping (exclusive)
at the first of `rootDir`, `/` or `.`.  Same fuel discipline as the loop. -/
def chainDirsF (rootDir : GoPath) : Nat → GoPath → List GoPath
  | 0, _ => []
  | fuel + 1, dir =>
    if dir = rootDir ∨ dir = GoPath.mk true [] ∨ dir = GoPath.mk false [] then []
    else dir :: chainDirsF rootDir fuel (dirOf dir)

/-- The examined directory chain with its adequate fuel. -/
def chainDirs (rootDir dir : GoPath) : List GoPath :=
  chainDirsF rootDir (dir.segs.length + 1) dir

/-- `isIgnored(path, rootDir)` abstracted over the pattern matcher: compute
the path relative to the root (failure is fail-open, returning false), test
every global rule against the leading sub-paths, then walk the `.gitignore`
chain starting at `dir := path` itself. -/
def isIgnoredWith (m : String → String → Except String Bool)
    (fs : GoPath → Option String) (rules : List IgnoreRule)
    (path rootDir : GoPath) : Bool :=
  match relSegs rootDir path with
  | none => false
  | some parts =>
    rules.any (fun rule => matchesAnyPartWith m rule.Pattern parts) ||
      checkGitignoresWith m fs rootDir parts path

/-- `isIgnored` from main.go, with the real `matchPattern`. -/
def isIgnored (fs : GoPath → Option String) (rules : List IgnoreRule)
    (path rootDir : GoPath) : Bool :=
  isIgnoredWith matchPattern fs rules path rootDir

/-- Variant following the spec's words for the `.gitignore` search of §4.2:
"walk upward from the path's containing directory toward rootDir", i.e. the
chain starts at `Dir(path)` instead of `path`.  Used only to compare with the
source behaviour. -/
def isIgnoredSpecSearch (fs : GoPath → Option String) (rules : List IgnoreRule)
    (path rootDir : GoPath) : Bool :=
  match relSegs rootDir path with
  | none => false
  | some parts =>
    rules.any (fun rule => matchesAnyPartWith matchPattern rule.Pattern parts) ||
      checkGitignoresWith matchPattern fs rootDir parts (dirOf path)

/-- Scan backwards for the last `.` of a file name (`filepath.Ext` core):
the suffix from the final dot, if any. -/
def lastDotSuffix : List Char → Option (List Char)
  | [] => none
  | c :: rest =>
    match lastDotSuffix rest with
    | some r => some r
    | none => if c = '.' then some (c :: rest) else none

/-- `filepath.Ext(path)`: the suffix of the final path element starting at its
final dot, or the empty string. -/
def goExt (p : GoPath) : String :=
  match lastDotSuffix ((p.segs.getLast?.getD "").toList) with
  | some cs => String.mk cs
  | none => ""

/-- `isIncludedFile(path, rootDir)`: with a non-empty extension allow-list the
extension must equal one entry and the path must not be ignored; with an
empty list only the ignore check applies. -/
def isIncludedFile (fs : GoPath → Option String) (rules : List IgnoreRule)
    (IncludeExtensions : List String) (path rootDir : GoPath) : Bool :=
  if IncludeExtensions.length > 0 then
    if IncludeExtensions.contains (goExt path) then
      !(isIgnored fs rules path rootDir)
    else false
  else !(isIgnored fs rules path rootDir)

mutual
/-- The directory tree walked by `filepath.Walk`, children listed in the
enumeration order of the walk.  The `.gitignore` contents consulted by
`isIgnored` are supplied separately as the `fs` map. -/
inductive FTree where
  | file (name : String)
  | dir (name : String) (children : FForest)
/-- A list of sibling entries of the walk. -/
inductive FForest where
  | nil
  | cons (t : FTree) (rest : FForest)
end

/-- `info.Name()` of an entry. -/
def treeNodeName : FTree → String
  | FTree.file n => n
  | FTree.dir n _ => n

/-- The walk path of a child entry. -/
def childPath (p : GoPath) (name : String) : GoPath := ⟨p.abs, p.segs ++ [name]⟩

/-- `strings.Repeat("  ", strings.Count(relPath, "/"))`: the joined relative
path of an entry with `n` segments contains `n - 1` separators (and the root's
"." contains none). -/
def indentOf (parts : List String) : String :=
  String.join (List.replicate (parts.length - 1) "  ")

mutual
/-- The body of `generateTree`'s walk callback, one entry per line:
an ignored entry is skipped (and an ignored directory is not descended into);
a surviving directory emits `name/`, a surviving file emits its bare name but
only when `isIncludedFile` admits it.  `filepath.Rel` cannot fail here because
every walked path extends the root, so the walk's error branch is
unreachable and the relative segments default is never used. -/
def treeLinesAt (fs : GoPath → Option String) (rules : List IgnoreRule)
    (exts : List String) (rootDir : GoPath) (p : GoPath) : FTree → List String
  | FTree.file n =>
    if isIgnored fs rules p rootDir then []
    else if isIncludedFile fs rules exts p rootDir then
      [indentOf ((relSegs rootDir p).getD ["."]) ++ n]
    else []
  | FTree.dir n cs =>
    if isIgnored fs rules p rootDir then []
    else
      (indentOf ((relSegs rootDir p).getD ["."]) ++ n ++ "/") ::
        forestLinesAt fs rules exts rootDir p cs
/-- The walk over a list of sibling entries, lines concatenated in order. -/
def forestLinesAt (fs : GoPath → Option String) (rules : List IgnoreRule)
    (exts : List String) (rootDir : GoPath) (p : GoPath) : FForest → List String
  | FForest.nil => []
  | FForest.cons t rest =>
    treeLinesAt fs rules exts rootDir (childPath p (treeNodeName t)) t ++
      forestLinesAt fs rules exts rootDir p rest
end

/-- `generateTree(root)`: the walk starts at the root entry itself and each
emitted line ends in a newline. -/
def generateTree (fs : GoPath → Option String) (rules : List IgnoreRule)
    (exts : List String) (rootDir : GoPath) (t : FTree) : String :=
  String.join ((treeLinesAt fs rules exts rootDir rootDir t).map (fun l => l ++ "\n"))

/-- A filesystem with no `.gitignore` files, used for concrete instances. -/
def fsNone : GoPath → Option String := fun _ => none

/-- Two booleans agreeing as propositions are equal. -/
lemma boolExt : ∀ X Y : Bool, (X = true ↔ Y = true) → X = Y := by decide

lemma regexMatch_anchored (ts : List RTok) (s : List Char) :
    regexMatch true true ts s = rmatch ts s := by
  apply boolExt
  unfold regexMatch
  simp only [List.any_eq_true, List.mem_range, Bool.and_eq_true, Bool.not_true,
    Bool.false_or, decide_eq_true_eq]
  constructor
  · rintro ⟨i, hi, j, hj, ⟨⟨hij, rfl⟩, rfl⟩, hr⟩
    simpa using hr
  · intro hr
    exact ⟨0, by omega, s.length, by omega, ⟨⟨by omega, rfl⟩, rfl⟩, by simpa using hr⟩

lemma regexMatch_startAnchored (ts : List RTok) (s : List Char) :
    regexMatch true false ts s = true ↔ ∃ n, n ≤ s.length ∧ rmatch ts (s.take n) = true := by
  unfold regexMatch
  simp only [List.any_eq_true, List.mem_range, Bool.and_eq_true, Bool.not_true,
    Bool.not_false, Bool.false_or, Bool.true_or, decide_eq_true_eq]
  constructor
  · rintro ⟨i, hi, j, hj, ⟨⟨hij, rfl⟩, -⟩, hr⟩
    exact ⟨j, by omega, by simpa using hr⟩
  · rintro ⟨n, hn, hr⟩
    exact ⟨0, by omega, n, by omega, ⟨⟨by omega, rfl⟩, trivial⟩, by simpa using hr⟩

lemma regexMatch_endAnchored (ts : List RTok) (s : List Char) :
    regexMatch false true ts s = true ↔ ∃ n, n ≤ s.length ∧ rmatch ts (s.drop n) = true := by
  unfold regexMatch
  simp only [List.any_eq_true, List.mem_range, Bool.and_eq_true, Bool.not_true,
    Bool.not_false, Bool.false_or, Bool.true_or, decide_eq_true_eq]
  have hds : ∀ i : Nat, (s.drop i).take (s.length - i) = s.drop i := by
    intro i
    rw [show s.length - i = (s.drop i).length by simp [List.length_drop], List.take_length]
  constructor
  · rintro ⟨i, hi, j, hj, ⟨⟨hij, -⟩, rfl⟩, hr⟩
    exact ⟨i, by omega, by rw [hds i] at hr; exact hr⟩
  · rintro ⟨n, hn, hr⟩
    exact ⟨n, by omega, s.length, by omega, ⟨⟨by omega, trivial⟩, rfl⟩, by rw [hds n]; exact hr⟩

lemma matchesAnyPartWith_append (m : String → String → Except String Bool)
    (pat : String) (parts more : List String)
    (h : matchesAnyPartWith m pat parts = true) :
    matchesAnyPartWith m pat (parts ++ more) = true := by
  unfold matchesAnyPartWith at h ⊢
  obtain ⟨i, hi, hp⟩ := List.any_eq_true.mp h
  have hi' : i < parts.length := List.mem_range.mp hi
  apply List.any_eq_true.mpr
  refine ⟨i, List.mem_range.mpr (by simp [List.length_append]; omega), ?_⟩
  rwa [List.take_append_of_le_length (by omega)]

lemma gitignoreMatchAt_append (m : String → String → Except String Bool)
    (fs : GoPath → Option String) (parts more : List String) (dir : GoPath)
    (h : gitignoreMatchAt m fs parts dir = true) :
    gitignoreMatchAt m fs (parts ++ more) dir = true := by
  unfold gitignoreMatchAt at h ⊢
  cases hfs : fs dir with
  | none => rw [hfs] at h; exact absurd h (by simp)
  | some content =>
    rw [hfs] at h
    obtain ⟨rule, hmem, hrule⟩ := List.any_eq_true.mp h
    exact List.any_eq_true.mpr ⟨rule, hmem, matchesAnyPartWith_append m _ parts more hrule⟩

lemma checkGitignoresF_append (m : String → String → Except String Bool)
    (fs : GoPath → Option String) (rootDir : GoPath) (parts more : List String) :
    ∀ (fuel : Nat) (dir : GoPath),
      checkGitignoresF m fs rootDir parts fuel dir = true →
      checkGitignoresF m fs rootDir (parts ++ more) fuel dir = true := by
  intro fuel
  induction fuel with
  | zero => intro dir h; exact absurd h (by simp [checkGitignoresF])
  | succ n ih =>
    intro dir h
    unfold checkGitignoresF at h ⊢
    by_cases hstop : dir = rootDir ∨ dir = GoPath.mk true [] ∨ dir = GoPath.mk false []
    · rw [if_pos hstop] at h; exact absurd h (by simp)
    · rw [if_neg hstop] at h ⊢
      rw [Bool.or_eq_true] at h ⊢
      rcases h with hl | hr
      · exact Or.inl (gitignoreMatchAt_append m fs parts more dir hl)
      · exact Or.inr (ih (dirOf dir) hr)

lemma checkGitignoresF_eq_chain (m : String → String → Except String Bool)
    (fs : GoPath → Option String) (rootDir : GoPath) (parts : List String) :
    ∀ (fuel : Nat) (dir : GoPath),
      checkGitignoresF m fs rootDir parts fuel dir =
        (chainDirsF rootDir fuel dir).any (gitignoreMatchAt m fs parts) := by
  intro fuel
  induction fuel with
  | zero => intro dir; simp [checkGitignoresF, chainDirsF]
  | succ n ih =>
    intro dir
    unfold checkGitignoresF chainDirsF
    by_cases hstop : dir = rootDir ∨ dir = GoPath.mk true [] ∨ dir = GoPath.mk false []
    · rw [if_pos hstop, if_pos hstop]; simp
    · rw [if_neg hstop, if_neg hstop, List.any_cons, ih (dirOf dir)]

lemma checkGitignoresWith_descend (m : String → String → Except String Bool)
    (fs : GoPath → Option String) (rootDir : GoPath) (parts : List String)
    (ab : Bool) (As : List String) (hroot : rootDir.segs.length < As.length) :
    ∀ ext : List String,
      checkGitignoresWith m fs rootDir parts ⟨ab, As⟩ = true →
      checkGitignoresWith m fs rootDir parts ⟨ab, As ++ ext⟩ = true := by
  intro ext
  induction ext using List.reverseRecOn with
  | nil => simp
  | append_singleton ext x ih =>
    intro h
    have h' := ih h
    unfold checkGitignoresWith at h' ⊢
    rw [← List.append_assoc]
    have hlen : ((As ++ ext) ++ [x]).length = (As ++ ext).length + 1 := by
      simp
      omega
    have hstop : ¬(GoPath.mk ab ((As ++ ext) ++ [x]) = rootDir ∨
        GoPath.mk ab ((As ++ ext) ++ [x]) = GoPath.mk true [] ∨
        GoPath.mk ab ((As ++ ext) ++ [x]) = GoPath.mk false []) := by
      rintro (hc | hc | hc)
      · have := congrArg (fun p => p.segs.length) hc
        simp at this
        omega
      · have := congrArg (fun p => p.segs.length) hc
        simp at this
      · have := congrArg (fun p => p.segs.length) hc
        simp at this
    show checkGitignoresF m fs rootDir parts
      ((GoPath.mk ab ((As ++ ext) ++ [x])).segs.length + 1) ⟨ab, (As ++ ext) ++ [x]⟩ = true
    have hred : (GoPath.mk ab ((As ++ ext) ++ [x])).segs.length + 1 =
        ((As ++ ext).length + 1) + 1 := by
      simp
      omega
    rw [hred]
    unfold checkGitignoresF
    rw [if_neg hstop, Bool.or_eq_true]
    right
    have hdir : dirOf ⟨ab, (As ++ ext) ++ [x]⟩ = ⟨ab, As ++ ext⟩ := by
      simp [dirOf, List.dropLast_concat]
    rw [hdir]
    exact h'

lemma relAux_self_append : ∀ (rs a : List String),
    relAux rs (rs ++ a) = if a = [] then ["."] else a := by
  intro rs
  induction rs with
  | nil =>
    intro a
    cases a with
    | nil => simp [relAux]
    | cons x xs => simp [relAux]
  | cons r rs ih =>
    intro a
    simpa [relAux] using ih a

lemma isIncludedFile_of_ignored (fs : GoPath → Option String)
    (rules : List IgnoreRule) (exts : List String) (path rootDir : GoPath)
    (h : isIgnored fs rules path rootDir = true) :
    isIncludedFile fs rules exts path rootDir = false := by
  unfold isIncludedFile
  by_cases h1 : exts.length > 0
  · rw [if_pos h1]
    by_cases h2 : exts.contains (goExt path)
    · rw [if_pos h2, h]; rfl
    · rw [if_neg h2]
  · rw [if_neg h1, h]; rfl

/-- Claim C10: the single-star pattern matches every path, including paths
containing `/`: with no anchors on either side the translated regex `[^/]*`
matches an empty substring of any candidate. -/
theorem matchPattern_star_matches_all (path : String) :
    matchPattern "*" path = Except.ok true := by
  unfold matchPattern
  rw [if_neg (by decide)]
  suffices h : regexMatch (!startsWithStar "*") (!endsWithStar "*")
      (globTokens "*".toList) path.toList = true by rw [h]
  have h0 : (0 : Nat) ∈ List.range (path.toList.length + 1) :=
    List.mem_range.mpr (Nat.succ_pos _)
  exact List.any_eq_true.mpr ⟨0, h0, List.any_eq_true.mpr ⟨0, h0, rfl⟩⟩

/-- Claim C5: the two ends of a pattern are anchored independently — a
pattern not starting with `*` must match from the start of the candidate, one
not ending with `*` must match up to the end — and in particular
`*.go` matches `main.go` but not `main.go.bak`. -/
theorem matchPattern_anchoring :
    (matchPattern "*.go" "main.go" = Except.ok true) ∧
    (matchPattern "*.go" "main.go.bak" = Except.ok false) ∧
    (∀ p s : String, p ≠ "**" → startsWithStar p = false → endsWithStar p = false →
      (matchPattern p s = Except.ok true ↔
        rmatch (globTokens p.toList) s.toList = true)) ∧
    (∀ p s : String, p ≠ "**" → startsWithStar p = false → endsWithStar p = true →
      (matchPattern p s = Except.ok true ↔
        ∃ n, n ≤ s.toList.length ∧ rmatch (globTokens p.toList) (s.toList.take n) = true)) ∧
    (∀ p s : String, p ≠ "**" → startsWithStar p = true → endsWithStar p = false →
      (matchPattern p s = Except.ok true ↔
        ∃ n, n ≤ s.toList.length ∧ rmatch (globTokens p.toList) (s.toList.drop n) = true)) := by
  refine ⟨rfl, rfl, ?_, ?_, ?_⟩
  · intro p s hp hS hE
    simp only [matchPattern, if_neg hp, hS, hE, Bool.not_false, regexMatch_anchored,
      Except.ok.injEq]
  · intro p s hp hS hE
    simp only [matchPattern, if_neg hp, hS, hE, Bool.not_false, Bool.not_true,
      Except.ok.injEq]
    exact regexMatch_startAnchored _ _
  · intro p s hp hS hE
    simp only [matchPattern, if_neg hp, hS, hE, Bool.not_false, Bool.not_true,
      Except.ok.injEq]
    exact regexMatch_endAnchored _ _

/-- Witness for the anchoring theorem at a fully-anchored concrete pattern. -/
theorem matchPattern_anchoring_witness : matchPattern "ab" "ab" = Except.ok true :=
  (matchPattern_anchoring.2.2.1 "ab" "ab" (by decide) rfl rfl).mpr rfl

/-- Claim C1 (code bug): a `**` that is not the whole pattern is NOT
translated to `(?:.*/)?` alone — because the `i++` in the Go range loop has
no effect, the second `*` is translated again as `[^/]*`, so `a/**/b`
compiles to `^a/(?:.*/)?[^/]*/b$`, which fails to match `a/b` (while still
matching `a/x/y/b`). -/
theorem matchPattern_doublestar_bug :
    globTokens "a/**/b".toList =
      [RTok.lit 'a', RTok.lit '/', RTok.dirOpt, RTok.starSeg, RTok.lit '/', RTok.lit 'b'] ∧
    matchPattern "a/**/b" "a/b" = Except.ok false ∧
    matchPattern "a/**/b" "a/x/y/b" = Except.ok true :=
  ⟨rfl, rfl, rfl⟩

/-- Claim C2 (counterexample): `matchPattern("build", "a/build")` is false,
and the ignore check with the single global pattern `build` does not ignore
the relative path `a/build`. -/
theorem matchPattern_build_subdir_counterexample :
    matchPattern "build" "a/build" = Except.ok false ∧
    isIgnored fsNone [⟨"build", "user-config"⟩] ⟨true, ["r", "a", "build"]⟩
      ⟨true, ["r"]⟩ = false :=
  ⟨rfl, rfl⟩

/-- Claim C2 (amended): the prefix-sub-path rule tests the pattern against
the leading sub-paths only, so a bare-name pattern matches exactly when the
name is the first segment: `build` covers `build` itself and everything
beneath it, but not a `build` segment at deeper nesting. -/
theorem matchesAnyPart_bare_name_leading :
    (∀ parts : List String, matchesAnyPart "build" ("build" :: parts) = true) ∧
    matchesAnyPart "build" ["a", "build"] = false := by
  constructor
  · intro parts
    unfold matchesAnyPart matchesAnyPartWith
    exact List.any_eq_true.mpr ⟨0, List.mem_range.mpr (Nat.succ_pos _), rfl⟩
  · rfl

/-- Claim C3 (counterexample): the `.gitignore` search starts at the path
itself, not at its containing directory — a directory whose own `.gitignore`
names it is ignored by the source, while the spec's start-at-parent search
does not ignore it. -/
theorem isIgnored_search_start_counterexample :
    isIgnored (fun p => if p = ⟨true, ["r", "sub"]⟩ then some "sub" else none) []
        ⟨true, ["r", "sub"]⟩ ⟨true, ["r"]⟩ = true ∧
    isIgnoredSpecSearch (fun p => if p = ⟨true, ["r", "sub"]⟩ then some "sub" else none) []
        ⟨true, ["r", "sub"]⟩ ⟨true, ["r"]⟩ = false :=
  ⟨rfl, rfl⟩

/-- Claim C3 (amended): after the global rules, `isIgnored` scans exactly the
chain of directories that starts at the path ITSELF and walks upward,
stopping (exclusive) at the first of `rootDir`, `/` or `.`; the head of that
chain is the path itself whenever the stop condition does not hold at it. -/
theorem isIgnored_chain_starts_at_path :
    (∀ (fs : GoPath → Option String) (rules : List IgnoreRule) (path rootDir : GoPath)
        (parts : List String), relSegs rootDir path = some parts →
      isIgnored fs rules path rootDir =
        (rules.any (fun rule => matchesAnyPart rule.Pattern parts) ||
          (chainDirs rootDir path).any (gitignoreMatchAt matchPattern fs parts))) ∧
    (∀ rootDir dir : GoPath,
      dir ≠ rootDir → dir ≠ ⟨true, []⟩ → dir ≠ ⟨false, []⟩ →
      (chainDirs rootDir dir).head? = some dir) := by
  constructor
  · intro fs rules path rootDir parts h
    unfold isIgnored isIgnoredWith
    rw [h]
    show (rules.any (fun rule => matchesAnyPart rule.Pattern parts) ||
        checkGitignoresWith matchPattern fs rootDir parts path) = _
    congr 1
    exact checkGitignoresF_eq_chain matchPattern fs rootDir parts _ path
  · intro rootDir dir h1 h2 h3
    unfold chainDirs chainDirsF
    rw [if_neg (by tauto)]
    rfl

/-- Witness for the chain characterization at a concrete path. -/
theorem isIgnored_chain_starts_at_path_witness :
    (isIgnored fsNone [] ⟨true, ["r", "sub"]⟩ ⟨true, ["r"]⟩ =
      (([] : List IgnoreRule).any (fun rule => matchesAnyPart rule.Pattern ["sub"]) ||
        (chainDirs ⟨true, ["r"]⟩ ⟨true, ["r", "sub"]⟩).any
          (gitignoreMatchAt matchPattern fsNone ["sub"]))) ∧
    (chainDirs ⟨true, ["r"]⟩ ⟨true, ["r", "sub"]⟩).head? = some ⟨true, ["r", "sub"]⟩ :=
  ⟨isIgnored_chain_starts_at_path.1 fsNone [] ⟨true, ["r", "sub"]⟩ ⟨true, ["r"]⟩ ["sub"] rfl,
    isIgnored_chain_starts_at_path.2 ⟨true, ["r"]⟩ ⟨true, ["r", "sub"]⟩
      (by decide) (by decide) (by decide)⟩

/-- Claim C6: with a non-empty extension allow-list a file is included iff
its extension equals some entry and it is not ignored; with an empty list it
is included iff it is not ignored. -/
theorem isIncludedFile_policy (fs : GoPath → Option String) (rules : List IgnoreRule)
    (exts : List String) (path rootDir : GoPath) :
    (exts ≠ [] →
      (isIncludedFile fs rules exts path rootDir = true ↔
        goExt path ∈ exts ∧ isIgnored fs rules path rootDir = false)) ∧
    (exts = [] →
      (isIncludedFile fs rules exts path rootDir = true ↔
        isIgnored fs rules path rootDir = false)) := by
  constructor
  · intro hne
    unfold isIncludedFile
    rw [if_pos (List.length_pos.mpr hne)]
    by_cases hc : exts.contains (goExt path) = true
    · have hmem : goExt path ∈ exts := List.mem_of_elem_eq_true hc
      rw [if_pos hc]
      simp [hmem, Bool.not_eq_true']
    · have hmem : ¬ goExt path ∈ exts := fun hm => hc (List.elem_eq_true_of_mem hm)
      rw [if_neg hc]
      simp [hmem]
  · intro he
    subst he
    unfold isIncludedFile
    simp [Bool.not_eq_true']

/-- Witness for the inclusion policy on a concrete `.go` file. -/
theorem isIncludedFile_policy_witness :
    isIncludedFile fsNone [] [".go"] ⟨true, ["r", "main.go"]⟩ ⟨true, ["r"]⟩ = true :=
  ((isIncludedFile_policy fsNone [] [".go"] ⟨true, ["r", "main.go"]⟩ ⟨true, ["r"]⟩).1
    (by decide)).mpr ⟨by decide, rfl⟩

/-- Claim C8: a pattern whose matcher always reports an error is treated as
non-matching — `matchesAnyPart` is false for it on every sub-path, and adding
it to the rule list does not change the ignore decision; the check never
aborts (it is a total function that keeps evaluating the remaining rules).
In this program the glob translation escapes every metacharacter, so the
compiled regex is in fact always valid; the behaviour is stated for an
arbitrary fallible matcher plugged into the source's error-handling
structure. -/
theorem matcher_error_nonfatal :
    ∀ (m : String → String → Except String Bool) (pat src : String),
      (∀ s : String, ∃ e : String, m pat s = Except.error e) →
      ∀ (parts : List String) (fs : GoPath → Option String) (rules : List IgnoreRule)
        (path rootDir : GoPath),
        matchesAnyPartWith m pat parts = false ∧
        isIgnoredWith m fs (⟨pat, src⟩ :: rules) path rootDir =
          isIgnoredWith m fs rules path rootDir := by
  intro m pat src herr parts fs rules path rootDir
  have hfalse : ∀ parts2 : List String, matchesAnyPartWith m pat parts2 = false := by
    intro parts2
    unfold matchesAnyPartWith
    rw [List.any_eq_false]
    intro i hi
    obtain ⟨e, he⟩ := herr (joinSlash (parts2.take (i + 1)))
    rw [he]
    simp
  refine ⟨hfalse parts, ?_⟩
  unfold isIgnoredWith
  cases hrel : relSegs rootDir path with
  | none => rfl
  | some parts2 =>
    simp only [List.any_cons, hfalse parts2, Bool.false_or]

/-- Witness: a concrete always-erroring matcher with a concrete rule list. -/
theorem matcher_error_nonfatal_witness :
    matchesAnyPartWith (fun _ _ => Except.error "bad") "x" ["a"] = false ∧
    isIgnoredWith (fun _ _ => Except.error "bad") fsNone [⟨"x", "user-config"⟩]
        ⟨true, ["r", "a"]⟩ ⟨true, ["r"]⟩ =
      isIgnoredWith (fun _ _ => Except.error "bad") fsNone []
        ⟨true, ["r", "a"]⟩ ⟨true, ["r"]⟩ :=
  matcher_error_nonfatal (fun _ _ => Except.error "bad") "x" "user-config"
    (fun _ => ⟨"bad", rfl⟩) ["a"] fsNone [] ⟨true, ["r", "a"]⟩ ⟨true, ["r"]⟩

/-- Claim C9: when the relative-path computation fails, `isIgnored` returns
false (fail-open), regardless of the rules and the filesystem. -/
theorem isIgnored_rel_failure_fail_open (fs : GoPath → Option String)
    (rules : List IgnoreRule) (path rootDir : GoPath)
    (h : relSegs rootDir path = none) :
    isIgnored fs rules path rootDir = false := by
  unfold isIgnored isIgnoredWith
  rw [h]

/-- Witness: a relative path against an absolute root cannot be resolved and
is therefore not ignored, even under the match-everything pattern. -/
theorem isIgnored_rel_failure_fail_open_witness :
    relSegs ⟨true, []⟩ ⟨false, ["a"]⟩ = none ∧
    isIgnored fsNone [⟨"*", "user-config"⟩] ⟨false, ["a"]⟩ ⟨true, []⟩ = false :=
  ⟨rfl, isIgnored_rel_failure_fail_open fsNone [⟨"*", "user-config"⟩]
    ⟨false, ["a"]⟩ ⟨true, []⟩ rfl⟩

/-- Claim C7 (counterexample): the descendant-ignore invariant fails when the
ignored path is the root itself — the root's relative path is `.`, so the
global pattern `.` ignores the root while its child `x` (relative path `x`)
is not ignored. -/
theorem isIgnored_descendant_counterexample :
    isIgnored fsNone [⟨".", "user-config"⟩] ⟨true, ["r"]⟩ ⟨true, ["r"]⟩ = true ∧
    (⟨true, ["r", "x"]⟩ : GoPath).segs = (⟨true, ["r"]⟩ : GoPath).segs ++ ["x"] ∧
    isIgnored fsNone [⟨".", "user-config"⟩] ⟨true, ["r", "x"]⟩ ⟨true, ["r"]⟩ = false :=
  ⟨rfl, rfl, rfl⟩

/-- Claim C7 (amended): for every proper descendant `rd ++ a` of the root
`rd` (so excluding the root itself), every further descendant
`(rd ++ a) ++ ext` of an ignored path is also ignored: its leading sub-paths
extend those of the ancestor, and its `.gitignore` chain passes through every
directory of the ancestor's chain. -/
theorem isIgnored_descendant (fs : GoPath → Option String) (rules : List IgnoreRule)
    (ab : Bool) (rd a ext : List String) (ha : a ≠ [])
    (h : isIgnored fs rules ⟨ab, rd ++ a⟩ ⟨ab, rd⟩ = true) :
    isIgnored fs rules ⟨ab, (rd ++ a) ++ ext⟩ ⟨ab, rd⟩ = true := by
  unfold isIgnored isIgnoredWith at h ⊢
  have hne : a ++ ext ≠ [] := by
    cases a with
    | nil => exact absurd rfl ha
    | cons x xs => simp
  have hrelA : relSegs ⟨ab, rd⟩ ⟨ab, rd ++ a⟩ = some a := by
    unfold relSegs
    rw [if_pos rfl, relAux_self_append, if_neg ha]
  have hrelB : relSegs ⟨ab, rd⟩ ⟨ab, (rd ++ a) ++ ext⟩ = some (a ++ ext) := by
    unfold relSegs
    rw [if_pos rfl, List.append_assoc, relAux_self_append, if_neg hne]
  rw [hrelA] at h
  rw [hrelB]
  simp only [Bool.or_eq_true] at h ⊢
  rcases h with hg | hc
  · left
    obtain ⟨rule, hmem, hrule⟩ := List.any_eq_true.mp hg
    exact List.any_eq_true.mpr
      ⟨rule, hmem, matchesAnyPartWith_append matchPattern rule.Pattern a ext hrule⟩
  · right
    have h1 : checkGitignoresWith matchPattern fs ⟨ab, rd⟩ (a ++ ext) ⟨ab, rd ++ a⟩ = true :=
      checkGitignoresF_append matchPattern fs ⟨ab, rd⟩ a ext _ ⟨ab, rd ++ a⟩ hc
    have hroot : (GoPath.mk ab rd).segs.length < (rd ++ a).length := by
      have : 0 < a.length := List.length_pos.mpr ha
      simp [List.length_append]
      omega
    exact checkGitignoresWith_descend matchPattern fs ⟨ab, rd⟩ (a ++ ext) ab (rd ++ a)
      hroot ext h1

/-- Witness: the global pattern `b` ignores `/r/b` and hence also `/r/b/x`. -/
theorem isIgnored_descendant_witness :
    isIgnored fsNone [⟨"b", "user-config"⟩] ⟨true, ["r", "b", "x"]⟩ ⟨true, ["r"]⟩ = true :=
  isIgnored_descendant fsNone [⟨"b", "user-config"⟩] true ["r"] ["b"] ["x"]
    (by decide) rfl

/-- Claim C4 (counterexample): a non-ignored entry can still be missing from
the tree — with the allow-list `[".go"]` the non-ignored file `a.txt` is
omitted, so ignoring is not the only condition that removes entries. -/
theorem generateTree_extension_filter_counterexample :
    generateTree fsNone [] [".go"] ⟨true, ["r"]⟩
        (FTree.dir "r" (FForest.cons (FTree.file "a.txt") FForest.nil)) = "r/\n" ∧
    isIgnored fsNone [] ⟨true, ["r", "a.txt"]⟩ ⟨true, ["r"]⟩ = false :=
  ⟨rfl, rfl⟩

/-- Claim C4 (amended): in the tree walk a file entry contributes a line
exactly when `isIncludedFile` admits it (ignored files are excluded by that
test as well); an ignored directory contributes nothing (its subtree is
skipped); a non-ignored directory emits its `name/` line and descends into
its children. -/
theorem treeLines_skip_characterization (fs : GoPath → Option String)
    (rules : List IgnoreRule) (exts : List String) (rootDir p : GoPath)
    (n : String) (cs : FForest) :
    (treeLinesAt fs rules exts rootDir p (FTree.file n) =
      if isIncludedFile fs rules exts p rootDir then
        [indentOf ((relSegs rootDir p).getD ["."]) ++ n]
      else []) ∧
    (isIgnored fs rules p rootDir = true →
      treeLinesAt fs rules exts rootDir p (FTree.dir n cs) = []) ∧
    (isIgnored fs rules p rootDir = false →
      treeLinesAt fs rules exts rootDir p (FTree.dir n cs) =
        (indentOf ((relSegs rootDir p).getD ["."]) ++ n ++ "/") ::
          forestLinesAt fs rules exts rootDir p cs) := by
  refine ⟨?_, ?_, ?_⟩
  · simp only [treeLinesAt]
    by_cases hign : isIgnored fs rules p rootDir = true
    · rw [if_pos hign, isIncludedFile_of_ignored fs rules exts p rootDir hign]
      simp
    · rw [if_neg hign]
  · intro h
    simp only [treeLinesAt]
    rw [if_pos h]
  · intro h
    simp only [treeLinesAt]
    rw [if_neg (by simp [h])]

/-- Witness: a non-ignored directory emits its line. -/
theorem treeLines_skip_characterization_witness :
    treeLinesAt fsNone [] [] ⟨true, ["r"]⟩ ⟨true, ["r"]⟩ (FTree.dir "r" FForest.nil) =
      ["r/"] := by
  rw [(treeLines_skip_characterization fsNone [] [] ⟨true, ["r"]⟩ ⟨true, ["r"]⟩
    "r" FForest.nil).2.2 rfl]
  rfl
